import Mathlib

/-!
Verification of the streaming byte-patch engine (`FileOps` / `opreader`) and
the `exif.Copy` chunk rewriter from the `metadata` repository.

Bytes are modelled as natural numbers; byte sequences as `List Nat`.
Go `int`/`int64` offsets and sizes are modelled as `Nat` (all claims concern
non-negative values; every guard in the source compares against 0 or uses
`a - b > 0` on non-negative quantities, which coincides with the `Nat`
truncated subtraction used here).
-/

namespace Metadata

/-- The only error an in-memory sequential source can produce is end of file,
mirroring Go `io.EOF` as returned by `bytes.Reader`. -/
inductive StreamErr where
  | eof
deriving DecidableEq, Repr

/-- An in-memory sequential byte source: the full underlying data plus the
read position.  Models the `io.Reader` handed to `FileOps.Reader`, with the
read semantics of `bytes.Reader`. -/
structure Src where
  data : List Nat
  pos : Nat
deriving DecidableEq, Repr

/-- Result of one `Read` call on a source: bytes produced, error, new source
state. -/
structure SrcRes where
  bs : List Nat
  err : Option StreamErr
  src : Src
deriving DecidableEq, Repr

/-- Go `bytes.Reader.Read`: at end of data return `(0, io.EOF)`; otherwise
copy `min k remaining` bytes and advance. -/
def srcRead (s : Src) (k : Nat) : SrcRes :=
  if s.data.length ≤ s.pos then ⟨[], some StreamErr.eof, s⟩
  else
    let bs := (s.data.drop s.pos).take k
    ⟨bs, none, ⟨s.data, s.pos + bs.length⟩⟩

/-- Go `FileOp`: a change applied to the stream at `Offset`, replacing `Size`
source bytes with `Data`. -/
structure FileOp where
  Offset : Nat
  Size : Nat
  Data : List Nat
deriving DecidableEq, Repr

/-- Go `type FileOps []FileOp`. -/
abbrev FileOps := List FileOp

/-- State of the Go `opreader` struct: source reader, ops, source read count
`ro`, current op index `i`, index `do` into the current op data (named `dOff`
here because `do` is a Lean keyword), and the owned 4096-byte scratch buffer
`tmp`. -/
structure opreader where
  r : Src
  ops : List FileOp
  ro : Nat
  i : Nat
  dOff : Nat
  tmp : List Nat
deriving DecidableEq, Repr

/-- Go `FileOps.Reader`: wraps the source, with `tmp := make([]byte, 4096)`. -/
def FileOps.Reader (ops : FileOps) (r : Src) : opreader :=
  ⟨r, ops, 0, 0, 0, List.replicate 4096 0⟩

/-- Result of one `opreader.Read` call: the caller buffer contents after the
call (`buf`, same length as the buffer passed in), the reported count `n`,
the error, and the updated reader state. -/
structure ReadRes where
  buf : List Nat
  n : Nat
  err : Option StreamErr
  st : opreader
deriving DecidableEq, Repr

/-- Result of the discard loop inside `opreader.Read`. -/
structure DiscardRes where
  src : Src
  ro : Nat
  tmp : List Nat
  err : Option StreamErr
deriving DecidableEq, Repr

/-- The inner discard loop of `opreader.Read`:
`for r.ro < end && err == nil { m := int(end - r.ro); if len(tmp) < m { m = len(tmp) }; m, err = r.r.Read(tmp[:m]); r.ro += int64(m) }`.
Each iteration overwrites the front of `tmp` with the bytes read.
Recursion is on a fuel argument so the definition is structural; every use
supplies `fuel = endv - ro`, which suffices because every iteration that
continues the loop advances `ro` by at least one byte.  (A read making no
progress with no error is possible only for an empty `tmp`, which
`FileOps.Reader` never produces; there, the Go loop would spin forever.) -/
def discardLoop : Nat → Src → Nat → Nat → List Nat → DiscardRes
  | 0, src, ro, _, tmp => ⟨src, ro, tmp, none⟩
  | fuel + 1, src, ro, endv, tmp =>
    if ro < endv then
      let m := min (endv - ro) tmp.length
      let r1 := srcRead src m
      let tmp1 := r1.bs ++ tmp.drop r1.bs.length
      match r1.err with
      | some e => ⟨r1.src, ro + r1.bs.length, tmp1, some e⟩
      | none =>
        if 0 < r1.bs.length then discardLoop fuel r1.src (ro + r1.bs.length) endv tmp1
        else ⟨r1.src, ro, tmp1, none⟩
    else ⟨src, ro, tmp, none⟩

/-- Go `opreader.Read`, with the caller buffer made explicit.  `filled` is
the content of the portion of the caller buffer already written and consumed
by this call (`p = p[m:]` slicing in Go); `p` is the remaining portion.
The returned `buf` is `filled ++ p` at exit, and `n = filled.length`.
One recursive step of the `for r.i < len(r.ops)` loop corresponds to
finishing op `i` and moving to op `i+1`; recursion is on a fuel argument so
the definition is structural, and every use supplies
`fuel = st.ops.length - st.i + 1`, which suffices because the loop only
repeats after incrementing `i`. -/
def opReadLoop : Nat → opreader → List Nat → List Nat → ReadRes
  | 0, st, filled, p => ⟨filled ++ p, filled.length, none, st⟩
  | fuel + 1, st, filled, p =>
  if st.i < st.ops.length then
    let o := st.ops.getD st.i ⟨0, 0, []⟩
    -- read bytes from source before offset:
    -- if ncopy := o.Offset - r.ro; ncopy > 0 { q := p[:min(len(p),ncopy)]; m, err := r.r.Read(q); ... }
    let pre : SrcRes :=
      if st.ro < o.Offset then srcRead st.r (min p.length (o.Offset - st.ro))
      else ⟨[], none, st.r⟩
    let filled1 := filled ++ pre.bs
    let p1 := p.drop pre.bs.length
    let st1 : opreader := { st with r := pre.src, ro := st.ro + pre.bs.length }
    match pre.err with
    | some e => ⟨filled1 ++ p1, filled1.length, some e, st1⟩
    | none =>
      if st1.ro < o.Offset then
        -- offset not yet reached
        ⟨filled1 ++ p1, filled1.length, none, st1⟩
      else
        -- yield op data: m := copy(p, o.Data[r.do:])
        let ds := (o.Data.drop st.dOff).take p1.length
        let filled2 := filled1 ++ ds
        let p2 := p1.drop ds.length
        let do2 := st.dOff + ds.length
        let st2 : opreader := { st1 with dOff := do2 }
        if do2 < o.Data.length then ⟨filled2 ++ p2, filled2.length, none, st2⟩
        else
          -- discard skipped bytes from source; tmp := r.tmp unless len(tmp) < len(p)
          let usep := st2.tmp.length < p2.length
          let tmp0 := if usep then p2 else st2.tmp
          let endv := o.Offset + o.Size
          let d := discardLoop (endv - st2.ro) st2.r st2.ro endv tmp0
          let p3 := if usep then d.tmp else p2
          let st3 : opreader :=
            { st2 with r := d.src, ro := d.ro, tmp := if usep then st2.tmp else d.tmp,
                       i := if d.ro = endv then st2.i + 1 else st2.i,
                       dOff := if d.ro = endv then 0 else do2 }
          match d.err with
          | some e => ⟨filled2 ++ p3, filled2.length, some e, st3⟩
          | none =>
            if d.ro = endv then opReadLoop fuel st3 filled2 p3
            else ⟨filled2 ++ p3, filled2.length, none, st3⟩
  else
    -- past last op: m, err := r.r.Read(p); return n + m, err
    let r1 := srcRead st.r p.length
    ⟨filled ++ r1.bs ++ p.drop r1.bs.length, filled.length + r1.bs.length, r1.err,
      { st with r := r1.src }⟩

/-- Go `(*opreader).Read` on a caller buffer with contents `p`. -/
def opreader.Read (st : opreader) (p : List Nat) : ReadRes :=
  opReadLoop (st.ops.length - st.i + 1) st [] p

/-- Go `io.Copy` over an `opreader` with its 32768-byte transfer buffer:
read into `buf`, append the `n` read bytes to the destination, stop with
success on `io.EOF`, stop with the error otherwise, loop on `nil`.
`fuel` bounds the number of iterations so the model is total; `none` models
an `io.Copy` call that would not have terminated within `fuel` reads. -/
def copyBuffer (fuel : Nat) (st : opreader) (buf acc : List Nat) :
    Option (List Nat × Option StreamErr × opreader) :=
  match fuel with
  | 0 => none
  | fuel + 1 =>
    let res := st.Read buf
    let acc1 := acc ++ res.buf.take res.n
    match res.err with
    | some StreamErr.eof => some (acc1, none, res.st)
    | none => copyBuffer fuel res.st res.buf acc1

/-- Iteration bound for `copyBuffer`; ample for any run that makes progress
(the output can never exceed the source length plus all op data). -/
def copyFuel (ops : FileOps) (input : List Nat) : Nat :=
  input.length + (ops.map fun o => o.Data.length).sum + 2

/-- Go `FileOps.Copy`: `io.Copy(w, ops.Reader(r))`, collecting the bytes
written to `w` and the returned error. -/
def FileOps.Copy (ops : FileOps) (input : List Nat) : Option (List Nat × Option StreamErr) :=
  (copyBuffer (copyFuel ops input) (FileOps.Reader ops ⟨input, 0⟩)
      (List.replicate 32768 0) []).map fun r => (r.1, r.2.1)

/-- Go `zerofill`: `n := maxfill; if len(p) < n { n = len(p) }; for i := range p { p[i] = 0 }; return n`.
The loop body zeroes every byte of `p`, not only the first `n`.  `maxfill`
is a Go `int`, modelled as an integer. -/
def zerofill (p : List Nat) (maxfill : Int) : List Nat × Int :=
  let n := if (p.length : Int) < maxfill then (p.length : Int) else maxfill
  (p.map fun _ => 0, n)

/-- Specification-level patch function: the intended output of applying
`ops` to `src`, starting from source cursor `c` (all bytes before `c`
already emitted or discarded). -/
def specFrom (c : Nat) (ops : List FileOp) (src : List Nat) : List Nat :=
  match ops with
  | [] => src.drop c
  | o :: rest => (src.drop c).take (o.Offset - c) ++ o.Data ++ specFrom (o.Offset + o.Size) rest src

/-- The documented `FileOps` precondition, relative to a source cursor `c`
and a source of length `srclen`: offsets weakly ascending from `c`, ranges
`[Offset, Offset+Size)` pairwise disjoint and contained in the source. -/
def validFrom (c : Nat) (ops : List FileOp) (srclen : Nat) : Bool :=
  match ops with
  | [] => c ≤ srclen
  | o :: rest => c ≤ o.Offset && validFrom (o.Offset + o.Size) rest srclen

/-- Strictly ascending, non-overlapping edits: the `InvalidEditSet`
condition of the spec (offsets strictly ascending, ranges disjoint). -/
def ascendingDisjoint : List FileOp → Bool
  | [] => true
  | [_] => true
  | a :: b :: rest =>
    decide (a.Offset < b.Offset) && decide (a.Offset + a.Size ≤ b.Offset) &&
      ascendingDisjoint (b :: rest)

/-- Construction of a `FileOps` value.  In Go, `FileOps` is a plain named
slice type: forming one from a list of `FileOp` is a conversion that
performs no validation and cannot fail.  The `Except` result models the
construction-error channel that a validating constructor would use. -/
def mkFileOps (l : List FileOp) : Except Unit FileOps :=
  Except.ok l

/-- Output still expected from an `opreader` state: the bytes that
remain to be produced by future `Read` calls.  Proof artefact, not from
the source. -/
def expect (st : opreader) : List Nat :=
  if st.i < st.ops.length then
    let o := st.ops.getD st.i ⟨0, 0, []⟩
    (st.r.data.drop st.ro).take (o.Offset - st.ro) ++ o.Data.drop st.dOff ++
      specFrom (o.Offset + o.Size) (st.ops.drop (st.i + 1)) st.r.data
  else st.r.data.drop st.r.pos

/-- Reachable, consistent `opreader` states: while ops remain, the source
position agrees with `ro`, the remaining ops are valid for the remaining
source, the data cursor is in range, and the scratch buffer is the nonempty
buffer allocated by `FileOps.Reader`.  Proof artefact, not from the source. -/
def Good (st : opreader) : Prop :=
  st.i ≤ st.ops.length ∧ 0 < st.tmp.length ∧
    (st.i < st.ops.length →
      st.r.pos = st.ro ∧
        validFrom st.ro (st.ops.drop st.i) st.r.data.length = true ∧
        st.dOff ≤ (st.ops.getD st.i ⟨0, 0, []⟩).Data.length)

/-- Offset of an edit re-derived against the stream produced by the edits
before it: the original offset shifted by the accumulated length change
`δ`. -/
def shiftOp (o : FileOp) (δ : Int) : FileOp :=
  ⟨(o.Offset + δ).toNat, o.Size, o.Data⟩

/-- Applying edits one at a time, in ascending original-offset order, each
single application running `FileOps.Copy` on the previous result with its
offset re-derived against that result.  `δ` is the accumulated difference
between output and source lengths so far. -/
def seqApply : List FileOp → Int → List Nat → Option (List Nat)
  | [], _, s => some s
  | o :: rest, δ, s =>
    match FileOps.Copy [shiftOp o δ] s with
    | some (out, none) => seqApply rest (δ + o.Data.length - o.Size) out
    | _ => none

/-! Auxiliary lemmas about the source model. -/

theorem srcRead_eof (s : Src) (k : Nat) (h : s.data.length ≤ s.pos) :
    srcRead s k = ⟨[], some StreamErr.eof, s⟩ := by
  simp [srcRead, h]

theorem srcRead_ok (s : Src) (k : Nat) (h : s.pos < s.data.length) :
    srcRead s k =
      ⟨(s.data.drop s.pos).take k, none,
        ⟨s.data, s.pos + ((s.data.drop s.pos).take k).length⟩⟩ := by
  simp [srcRead, Nat.not_le.mpr h]

theorem take_drop_length (l : List Nat) (c k : Nat) :
    ((l.drop c).take k).length = min k (l.length - c) := by
  simp

/-! Facts about `validFrom`. -/

theorem validFrom_le {c : Nat} {ops : List FileOp} {L : Nat}
    (h : validFrom c ops L = true) : c ≤ L := by
  induction ops generalizing c with
  | nil => simpa [validFrom] using h
  | cons o rest ih =>
    simp only [validFrom, Bool.and_eq_true, decide_eq_true_eq] at h
    exact le_trans h.1 (le_trans (Nat.le_add_right _ _) (ih h.2))

theorem validFrom_cons {c : Nat} {o : FileOp} {rest : List FileOp} {L : Nat}
    (h : validFrom c (o :: rest) L = true) :
    c ≤ o.Offset ∧ validFrom (o.Offset + o.Size) rest L = true := by
  simpa [validFrom] using h

theorem validFrom_of_le {c c2 : Nat} {o : FileOp} {rest : List FileOp} {L : Nat}
    (h : validFrom c (o :: rest) L = true) (hc : c2 ≤ o.Offset) :
    validFrom c2 (o :: rest) L = true := by
  simp only [validFrom, Bool.and_eq_true, decide_eq_true_eq] at h ⊢
  exact ⟨hc, h.2⟩

/-! The discard loop consumes the source exactly up to `endv` whenever the
source is long enough and the scratch buffer is nonempty. -/

theorem discardLoop_spec (tmp : List Nat) (src : Src) (ro endv fuel : Nat)
    (hpos : src.pos = ro) (hend : endv ≤ src.data.length) (hro : ro ≤ endv)
    (htmp : 0 < tmp.length) (hfuel : endv - ro ≤ fuel) :
    ∃ t, discardLoop fuel src ro endv tmp = ⟨⟨src.data, endv⟩, endv, t, none⟩ ∧
      t.length = tmp.length := by
  induction fuel generalizing src ro tmp with
  | zero =>
    have hre : ro = endv := by omega
    subst hre
    refine ⟨tmp, ?_, rfl⟩
    simp only [discardLoop]
    cases src with
    | mk d q => simp_all
  | succ fuel ih =>
    obtain ⟨data, pos⟩ := src
    simp only at hpos hend
    subst hpos
    by_cases hlt : pos < endv
    · have hplt : pos < data.length := by omega
      have hbs :
          ((data.drop pos).take (min (endv - pos) tmp.length)).length
            = min (endv - pos) tmp.length := by
        rw [take_drop_length data pos _]
        omega
      have h1 : 0 < min (endv - pos) tmp.length := by omega
      simp only [discardLoop, if_pos hlt, srcRead_ok ⟨data, pos⟩ _ hplt, hbs, if_pos h1]
      have htmp1 :
          (((data.drop pos).take (min (endv - pos) tmp.length)) ++
            tmp.drop (min (endv - pos) tmp.length)).length = tmp.length := by
        simp only [List.length_append, List.length_drop, hbs]
        omega
      obtain ⟨t, ht1, ht2⟩ := ih
        (((data.drop pos).take (min (endv - pos) tmp.length)) ++
          tmp.drop (min (endv - pos) tmp.length))
        ⟨data, pos + min (endv - pos) tmp.length⟩
        (pos + min (endv - pos) tmp.length)
        rfl (by simpa using hend) (by omega) (by rw [htmp1]; omega) (by simp; omega)
      refine ⟨t, ht1, ?_⟩
      rw [ht2, htmp1]
    · have hre : pos = endv := by omega
      subst hre
      refine ⟨tmp, ?_, rfl⟩
      simp [discardLoop, if_neg (lt_irrefl pos)]

theorem take_append_ge (B C : List Nat) (k : Nat) (h : B.length ≤ k) :
    (B ++ C).take k = B ++ C.take (k - B.length) := by
  rw [List.take_append_eq_append_take, List.take_of_length_le h]

theorem drop_append_ge (B C : List Nat) (k : Nat) (h : B.length ≤ k) :
    (B ++ C).drop k = C.drop (k - B.length) := by
  rw [List.drop_append_eq_append_drop, List.drop_eq_nil_of_le h, List.nil_append]

/-! Facts about `expect` and `specFrom`. -/

theorem expect_of_stop (st : opreader) (h : st.ops.length ≤ st.i) :
    expect st = st.r.data.drop st.r.pos := by
  simp [expect, Nat.not_lt.mpr h]

theorem expect_spec (st : opreader) (h0 : st.dOff = 0) (hp : st.r.pos = st.ro) :
    expect st = specFrom st.ro (st.ops.drop st.i) st.r.data := by
  by_cases hlt : st.i < st.ops.length
  · simp only [expect, if_pos hlt, List.drop_eq_getElem_cons hlt, specFrom,
      List.getD_eq_getElem _ _ hlt, h0, List.drop_zero]
  · have h2 : st.ops.drop st.i = [] := List.drop_eq_nil_of_le (Nat.le_of_not_lt hlt)
    simp only [expect, if_neg hlt, h2, specFrom, hp]

theorem specFrom_length_le (c : Nat) (ops : List FileOp) (src : List Nat)
    (h : validFrom c ops src.length = true) :
    (specFrom c ops src).length ≤
      (src.length - c) + (ops.map fun o => o.Data.length).sum := by
  induction ops generalizing c with
  | nil => simp [specFrom]
  | cons o rest ih =>
    obtain ⟨hc, hrest⟩ := validFrom_cons h
    have h1 := ih (o.Offset + o.Size) hrest
    have h2 := take_drop_length src c (o.Offset - c)
    have h3 := validFrom_le hrest
    simp only [specFrom, List.length_append, List.map_cons, List.sum_cons, h2]
    omega

/-- Conclusions of one `opReadLoop` call from a `Good` state. -/
def ReadConcl (fuel : Nat) (st : opreader) (filled p : List Nat) : Prop :=
  (opReadLoop fuel st filled p).n =
      filled.length + min p.length (expect st).length ∧
  (opReadLoop fuel st filled p).buf.take (opReadLoop fuel st filled p).n =
      filled ++ (expect st).take (min p.length (expect st).length) ∧
  (opReadLoop fuel st filled p).buf.length = filled.length + p.length ∧
  expect (opReadLoop fuel st filled p).st =
      (expect st).drop (min p.length (expect st).length) ∧
  Good (opReadLoop fuel st filled p).st ∧
  ((opReadLoop fuel st filled p).err = none ∨
    (opReadLoop fuel st filled p).err = some StreamErr.eof) ∧
  ((opReadLoop fuel st filled p).err = some StreamErr.eof →
    expect (opReadLoop fuel st filled p).st = []) ∧
  (expect st = [] → p ≠ [] → (opReadLoop fuel st filled p).err = some StreamErr.eof)

theorem opReadLoop_at_offset (fuel : Nat) (st : opreader) (filled p : List Nat)
    (hG : Good st) (hi : st.i < st.ops.length)
    (hro : st.ro = (st.ops.getD st.i ⟨0, 0, []⟩).Offset)
    (hfuel : st.ops.length - st.i < fuel + 1)
    (ih : ∀ st2 f2 p2, Good st2 → st2.ops.length - st2.i < fuel →
      ReadConcl fuel st2 f2 p2) :
    ReadConcl (fuel + 1) st filled p := by
  obtain ⟨hile, htmp, himpl⟩ := hG
  obtain ⟨hpos, hv, hdo⟩ := himpl hi
  have hdropi : st.ops.drop st.i = st.ops.getD st.i ⟨0, 0, []⟩ :: st.ops.drop (st.i + 1) := by
    rw [List.drop_eq_getElem_cons hi, List.getD_eq_getElem _ _ hi]
  rw [hdropi] at hv
  obtain ⟨hcoff, hrest⟩ := validFrom_cons hv
  have hoffL := validFrom_le hrest
  have hoff0 : (st.ops.getD st.i ⟨0, 0, []⟩).Offset - st.ro = 0 := by omega
  have hexp : expect st =
      (st.ops.getD st.i ⟨0, 0, []⟩).Data.drop st.dOff ++
        specFrom ((st.ops.getD st.i ⟨0, 0, []⟩).Offset + (st.ops.getD st.i ⟨0, 0, []⟩).Size)
          (st.ops.drop (st.i + 1)) st.r.data := by
    simp only [expect, if_pos hi, hoff0, List.take_zero, List.nil_append]
  have hnro : ¬ st.ro < (st.ops.getD st.i ⟨0, 0, []⟩).Offset := by omega
  have hds := take_drop_length (st.ops.getD st.i ⟨0, 0, []⟩).Data st.dOff p.length
  have hexplen : (expect st).length =
      ((st.ops.getD st.i ⟨0, 0, []⟩).Data.length - st.dOff) +
        (specFrom ((st.ops.getD st.i ⟨0, 0, []⟩).Offset + (st.ops.getD st.i ⟨0, 0, []⟩).Size)
          (st.ops.drop (st.i + 1)) st.r.data).length := by
    rw [hexp]
    simp [List.length_append]
  unfold ReadConcl
  simp only [opReadLoop, if_pos hi, if_neg hnro, List.length_nil, Nat.add_zero,
    List.drop_zero, List.append_nil, hds]
  by_cases hfit : st.dOff +
      min p.length ((st.ops.getD st.i ⟨0, 0, []⟩).Data.length - st.dOff) <
      (st.ops.getD st.i ⟨0, 0, []⟩).Data.length
  · -- the caller buffer fills up before the op data is exhausted
    have hmin : min p.length ((st.ops.getD st.i ⟨0, 0, []⟩).Data.length - st.dOff)
        = p.length := by omega
    rw [hmin] at hfit
    have hk : min p.length (expect st).length = p.length := by
      rw [hexplen]
      omega
    have hpB : p.length ≤ ((st.ops.getD st.i ⟨0, 0, []⟩).Data.drop st.dOff).length := by
      simp only [List.length_drop]
      omega
    simp only [hmin, if_pos hfit, List.drop_length, List.append_nil, hk]
    refine ⟨?_, ?_, ?_, ?_, ?_, ?_, ?_, ?_⟩
    · simp only [List.length_append, hds, hmin]
    · rw [List.take_length, hexp, List.take_append_of_le_length hpB]
    · simp only [List.length_append, hds, hmin]
    · rw [hexp, List.drop_append_of_le_length hpB]
      simp only [expect, if_pos hi, hoff0, List.take_zero, List.nil_append,
        List.drop_drop, hmin]
    · refine ⟨hile, htmp, fun h => ⟨hpos, ?_, ?_⟩⟩
      · dsimp only
        rw [hdropi]
        exact hv
      · dsimp only
        omega
    · trivial
    · intro h
      exact Option.noConfusion h
    · intro h1 _
      exfalso
      rw [hexp] at h1
      have hB := (List.append_eq_nil.mp h1).1
      have hBlen := congrArg List.length hB
      simp only [List.length_drop, List.length_nil] at hBlen
      omega
  · -- all remaining op data fits: emit it, then discard and recurse
    have hble : (st.ops.getD st.i ⟨0, 0, []⟩).Data.length - st.dOff ≤ p.length := by omega
    have hmin : min p.length ((st.ops.getD st.i ⟨0, 0, []⟩).Data.length - st.dOff)
        = (st.ops.getD st.i ⟨0, 0, []⟩).Data.length - st.dOff := by omega
    have hdo2 : st.dOff + ((st.ops.getD st.i ⟨0, 0, []⟩).Data.length - st.dOff)
        = (st.ops.getD st.i ⟨0, 0, []⟩).Data.length := by omega
    have hdsB : List.take p.length (List.drop st.dOff (st.ops.getD st.i ⟨0, 0, []⟩).Data)
        = List.drop st.dOff (st.ops.getD st.i ⟨0, 0, []⟩).Data :=
      List.take_of_length_le (by simp only [List.length_drop]; omega)
    have htmp0 : 0 < (if st.tmp.length <
          (List.drop ((st.ops.getD st.i ⟨0, 0, []⟩).Data.length - st.dOff) p).length then
        List.drop ((st.ops.getD st.i ⟨0, 0, []⟩).Data.length - st.dOff) p
      else st.tmp).length := by
      split <;> omega
    obtain ⟨t, hdl, htl⟩ := discardLoop_spec
      (if st.tmp.length <
          (List.drop ((st.ops.getD st.i ⟨0, 0, []⟩).Data.length - st.dOff) p).length then
        List.drop ((st.ops.getD st.i ⟨0, 0, []⟩).Data.length - st.dOff) p
      else st.tmp)
      st.r st.ro ((st.ops.getD st.i ⟨0, 0, []⟩).Offset + (st.ops.getD st.i ⟨0, 0, []⟩).Size)
      ((st.ops.getD st.i ⟨0, 0, []⟩).Offset + (st.ops.getD st.i ⟨0, 0, []⟩).Size - st.ro)
      hpos hoffL (by omega) htmp0 (le_refl _)
    simp only [hmin, hdo2, if_neg (lt_irrefl ((st.ops.getD st.i ⟨0, 0, []⟩).Data.length)),
      hdsB, hdl, if_pos rfl, if_true]
    have hBlen : (List.drop st.dOff (st.ops.getD st.i ⟨0, 0, []⟩).Data).length
        = (st.ops.getD st.i ⟨0, 0, []⟩).Data.length - st.dOff := by
      simp only [List.length_drop]
    have hp2len : (List.drop ((st.ops.getD st.i ⟨0, 0, []⟩).Data.length - st.dOff) p).length
        = p.length - ((st.ops.getD st.i ⟨0, 0, []⟩).Data.length - st.dOff) := by
      simp only [List.length_drop]
    have hp3len : (if st.tmp.length <
          (List.drop ((st.ops.getD st.i ⟨0, 0, []⟩).Data.length - st.dOff) p).length then t
        else List.drop ((st.ops.getD st.i ⟨0, 0, []⟩).Data.length - st.dOff) p).length
        = p.length - ((st.ops.getD st.i ⟨0, 0, []⟩).Data.length - st.dOff) := by
      split
      next h => rw [htl, if_pos h, hp2len]
      next h => rw [hp2len]
    have hGood3 : Good
        ⟨⟨st.r.data, (st.ops.getD st.i ⟨0, 0, []⟩).Offset + (st.ops.getD st.i ⟨0, 0, []⟩).Size⟩,
          st.ops, (st.ops.getD st.i ⟨0, 0, []⟩).Offset + (st.ops.getD st.i ⟨0, 0, []⟩).Size,
          st.i + 1, 0,
          if st.tmp.length <
              (List.drop ((st.ops.getD st.i ⟨0, 0, []⟩).Data.length - st.dOff) p).length then
            st.tmp else t⟩ := by
      refine ⟨by dsimp only; omega, ?_, fun h3 => ⟨rfl, ?_, ?_⟩⟩
      · dsimp only
        split
        next h => exact htmp
        next h => rw [htl]; split <;> omega
      · dsimp only
        exact hrest
      · dsimp only
        exact Nat.zero_le _
    obtain ⟨ih1, ih2, ih3, ih4, ih5, ih6, ih7, ih8⟩ := ih
      ⟨⟨st.r.data, (st.ops.getD st.i ⟨0, 0, []⟩).Offset + (st.ops.getD st.i ⟨0, 0, []⟩).Size⟩,
        st.ops, (st.ops.getD st.i ⟨0, 0, []⟩).Offset + (st.ops.getD st.i ⟨0, 0, []⟩).Size,
        st.i + 1, 0,
        if st.tmp.length <
            (List.drop ((st.ops.getD st.i ⟨0, 0, []⟩).Data.length - st.dOff) p).length then
          st.tmp else t⟩
      (filled ++ List.drop st.dOff (st.ops.getD st.i ⟨0, 0, []⟩).Data)
      (if st.tmp.length <
          (List.drop ((st.ops.getD st.i ⟨0, 0, []⟩).Data.length - st.dOff) p).length then t
        else List.drop ((st.ops.getD st.i ⟨0, 0, []⟩).Data.length - st.dOff) p)
      hGood3 (by dsimp only; omega)
    have hexp3 : expect
        ⟨⟨st.r.data, (st.ops.getD st.i ⟨0, 0, []⟩).Offset + (st.ops.getD st.i ⟨0, 0, []⟩).Size⟩,
          st.ops, (st.ops.getD st.i ⟨0, 0, []⟩).Offset + (st.ops.getD st.i ⟨0, 0, []⟩).Size,
          st.i + 1, 0,
          if st.tmp.length <
              (List.drop ((st.ops.getD st.i ⟨0, 0, []⟩).Data.length - st.dOff) p).length then
            st.tmp else t⟩
        = specFrom ((st.ops.getD st.i ⟨0, 0, []⟩).Offset + (st.ops.getD st.i ⟨0, 0, []⟩).Size)
          (st.ops.drop (st.i + 1)) st.r.data := by
      rw [expect_spec _ rfl rfl]
    rw [hexp3] at ih1 ih2 ih4 ih8
    have hBK : (List.drop st.dOff (st.ops.getD st.i ⟨0, 0, []⟩).Data).length ≤
        p.length ⊓ (List.drop st.dOff (st.ops.getD st.i ⟨0, 0, []⟩).Data ++
          specFrom ((st.ops.getD st.i ⟨0, 0, []⟩).Offset + (st.ops.getD st.i ⟨0, 0, []⟩).Size)
            (st.ops.drop (st.i + 1)) st.r.data).length := by
      simp only [List.length_append, hBlen]
      omega
    refine ⟨?_, ?_, ?_, ?_, ih5, ih6, ih7, ?_⟩
    · rw [ih1]
      simp only [List.length_append, hBlen, hp3len, hexplen]
      omega
    · rw [ih2, hexp, take_append_ge _ _ _ hBK, ← List.append_assoc]
      congr 1
      congr 1
      simp only [hp3len, hBlen, List.length_append]
      omega
    · rw [ih3]
      simp only [List.length_append, hBlen, hp3len]
      omega
    · rw [ih4, hexp, drop_append_ge _ _ _ hBK]
      congr 1
      simp only [hp3len, hBlen, List.length_append]
      omega
    · intro h1 h2
      rw [hexp] at h1
      have hBnil := (List.append_eq_nil.mp h1).1
      have hCnil := (List.append_eq_nil.mp h1).2
      have hlB : (st.ops.getD st.i ⟨0, 0, []⟩).Data.length - st.dOff = 0 := by
        have h4 := congrArg List.length hBnil
        rw [hBlen] at h4
        simpa using h4
      have hple : 0 < p.length := List.length_pos.mpr h2
      refine ih8 hCnil (fun hq => ?_)
      have h5 := congrArg List.length hq
      rw [hp3len] at h5
      simp only [List.length_nil] at h5
      omega

theorem opReadLoop_good (fuel : Nat) :
    ∀ (st : opreader) (filled p : List Nat), Good st →
      st.ops.length - st.i < fuel → ReadConcl fuel st filled p := by
  induction fuel with
  | zero =>
    intro st filled p _ hf
    exact absurd hf (by omega)
  | succ fuel ih =>
    intro st filled p hG hfuel
    obtain ⟨hile, htmp, himpl⟩ := hG
    by_cases hi : st.i < st.ops.length
    · -- an op is pending
      obtain ⟨hpos, hv, hdo⟩ := himpl hi
      have hdropi : st.ops.drop st.i
          = st.ops.getD st.i ⟨0, 0, []⟩ :: st.ops.drop (st.i + 1) := by
        rw [List.drop_eq_getElem_cons hi, List.getD_eq_getElem _ _ hi]
      have hv2 := hv
      rw [hdropi] at hv2
      obtain ⟨hcoff, hrest⟩ := validFrom_cons hv2
      have hoffL := validFrom_le hrest
      by_cases hro : st.ro < (st.ops.getD st.i ⟨0, 0, []⟩).Offset
      · -- source bytes before the edit offset are copied first
        have hplt : st.r.pos < st.r.data.length := by omega
        have hbsl : ((st.r.data.drop st.r.pos).take
            (min p.length ((st.ops.getD st.i ⟨0, 0, []⟩).Offset - st.ro))).length
            = min p.length ((st.ops.getD st.i ⟨0, 0, []⟩).Offset - st.ro) := by
          rw [take_drop_length]
          omega
        have hexpA : expect st =
            (st.r.data.drop st.ro).take ((st.ops.getD st.i ⟨0, 0, []⟩).Offset - st.ro) ++
              ((st.ops.getD st.i ⟨0, 0, []⟩).Data.drop st.dOff ++
              specFrom ((st.ops.getD st.i ⟨0, 0, []⟩).Offset + (st.ops.getD st.i ⟨0, 0, []⟩).Size)
                (st.ops.drop (st.i + 1)) st.r.data) := by
          simp only [expect, if_pos hi, List.append_assoc]
        have hAlen : ((st.r.data.drop st.ro).take
            ((st.ops.getD st.i ⟨0, 0, []⟩).Offset - st.ro)).length
            = (st.ops.getD st.i ⟨0, 0, []⟩).Offset - st.ro := by
          rw [take_drop_length]
          omega
        have hexplen : (expect st).length =
            ((st.ops.getD st.i ⟨0, 0, []⟩).Offset - st.ro) +
              (((st.ops.getD st.i ⟨0, 0, []⟩).Data.drop st.dOff).length +
              (specFrom ((st.ops.getD st.i ⟨0, 0, []⟩).Offset + (st.ops.getD st.i ⟨0, 0, []⟩).Size)
                (st.ops.drop (st.i + 1)) st.r.data).length) := by
          rw [hexpA]
          simp only [List.length_append, hAlen]
        by_cases hq : p.length < (st.ops.getD st.i ⟨0, 0, []⟩).Offset - st.ro
        · -- the whole buffer is consumed by the preface copy
          unfold ReadConcl
          simp only [opReadLoop, if_pos hi, if_pos hro, srcRead_ok st.r _ hplt, hbsl]
          have hql : min p.length ((st.ops.getD st.i ⟨0, 0, []⟩).Offset - st.ro)
              = p.length := by omega
          have hk : min p.length (expect st).length = p.length := by
            rw [hexplen]
            simp only [List.length_drop]
            omega
          simp only [hql, if_pos (show st.ro + p.length <
              (st.ops.getD st.i ⟨0, 0, []⟩).Offset by omega), List.drop_length,
            List.append_nil, hk, hpos]
          refine ⟨?_, ?_, ?_, ?_, ?_, ?_, ?_, ?_⟩
          · simp only [List.length_append, take_drop_length]
            omega
          · rw [List.take_length, hexpA,
              List.take_append_of_le_length (by rw [hAlen]; omega), List.take_take]
            congr 2
            omega
          · simp only [List.length_append, take_drop_length]
            omega
          · rw [hexpA, List.drop_append_of_le_length (by rw [hAlen]; omega),
              List.drop_take, List.drop_drop]
            dsimp only [expect]
            rw [if_pos hi]
            simp only [List.append_assoc]
            congr 2
            omega
          · refine ⟨hile, htmp, fun h => ⟨rfl, ?_, hdo⟩⟩
            dsimp only
            rw [hdropi]
            exact validFrom_of_le hv2 (by omega)
          · exact Or.inl trivial
          · intro h
            exact Option.noConfusion h
          · intro h1 _
            exfalso
            have h4 := congrArg List.length h1
            rw [hexplen] at h4
            simp only [List.length_nil] at h4
            omega
        · -- the preface completes within this call; continue at the edit offset
          have hql : min p.length ((st.ops.getD st.i ⟨0, 0, []⟩).Offset - st.ro)
              = (st.ops.getD st.i ⟨0, 0, []⟩).Offset - st.ro := by omega
          have hcond : ¬ (st.ro + ((st.ops.getD st.i ⟨0, 0, []⟩).Offset - st.ro)
              < (st.ops.getD st.i ⟨0, 0, []⟩).Offset) := by omega
          have hstep : opReadLoop (fuel + 1) st filled p =
              opReadLoop (fuel + 1)
                ⟨⟨st.r.data, st.ro + ((st.ops.getD st.i ⟨0, 0, []⟩).Offset - st.ro)⟩,
                  st.ops, st.ro + ((st.ops.getD st.i ⟨0, 0, []⟩).Offset - st.ro),
                  st.i, st.dOff, st.tmp⟩
                (filled ++ (st.r.data.drop st.ro).take
                  ((st.ops.getD st.i ⟨0, 0, []⟩).Offset - st.ro))
                (p.drop ((st.ops.getD st.i ⟨0, 0, []⟩).Offset - st.ro)) := by
            simp only [opReadLoop, if_pos hi, if_pos hro, srcRead_ok st.r _ hplt, hbsl,
              hql, hpos, hAlen, if_neg hcond, List.length_nil, Nat.add_zero,
              List.drop_zero, List.append_nil]
          have hGood1 : Good
              ⟨⟨st.r.data, st.ro + ((st.ops.getD st.i ⟨0, 0, []⟩).Offset - st.ro)⟩,
                st.ops, st.ro + ((st.ops.getD st.i ⟨0, 0, []⟩).Offset - st.ro),
                st.i, st.dOff, st.tmp⟩ := by
            refine ⟨hile, htmp, fun h => ⟨rfl, ?_, hdo⟩⟩
            dsimp only
            rw [hdropi]
            exact validFrom_of_le hv2 (by omega)
          have hRC := opReadLoop_at_offset fuel
            ⟨⟨st.r.data, st.ro + ((st.ops.getD st.i ⟨0, 0, []⟩).Offset - st.ro)⟩,
              st.ops, st.ro + ((st.ops.getD st.i ⟨0, 0, []⟩).Offset - st.ro),
              st.i, st.dOff, st.tmp⟩
            (filled ++ (st.r.data.drop st.ro).take
              ((st.ops.getD st.i ⟨0, 0, []⟩).Offset - st.ro))
            (p.drop ((st.ops.getD st.i ⟨0, 0, []⟩).Offset - st.ro))
            hGood1 hi (by dsimp only; omega) hfuel ih
          unfold ReadConcl at hRC
          obtain ⟨hA1, hA2, hA3, hA4, hA5, hA6, hA7, hA8⟩ := hRC
          have h0 : (st.ops.getD st.i ⟨0, 0, []⟩).Offset -
              (st.ro + ((st.ops.getD st.i ⟨0, 0, []⟩).Offset - st.ro)) = 0 := by omega
          have hexp1 : expect
              ⟨⟨st.r.data, st.ro + ((st.ops.getD st.i ⟨0, 0, []⟩).Offset - st.ro)⟩,
                st.ops, st.ro + ((st.ops.getD st.i ⟨0, 0, []⟩).Offset - st.ro),
                st.i, st.dOff, st.tmp⟩ =
              (st.ops.getD st.i ⟨0, 0, []⟩).Data.drop st.dOff ++
                specFrom ((st.ops.getD st.i ⟨0, 0, []⟩).Offset +
                  (st.ops.getD st.i ⟨0, 0, []⟩).Size)
                  (st.ops.drop (st.i + 1)) st.r.data := by
            simp only [expect, if_pos hi, h0, List.take_zero, List.nil_append]
          rw [hexp1] at hA1 hA2 hA4 hA8
          have hAk : ((st.r.data.drop st.ro).take
              ((st.ops.getD st.i ⟨0, 0, []⟩).Offset - st.ro)).length ≤
              min p.length ((st.r.data.drop st.ro).take
                  ((st.ops.getD st.i ⟨0, 0, []⟩).Offset - st.ro) ++
                ((st.ops.getD st.i ⟨0, 0, []⟩).Data.drop st.dOff ++
                specFrom ((st.ops.getD st.i ⟨0, 0, []⟩).Offset +
                  (st.ops.getD st.i ⟨0, 0, []⟩).Size)
                  (st.ops.drop (st.i + 1)) st.r.data)).length := by
            simp only [List.length_append, hAlen, List.length_drop]
            omega
          unfold ReadConcl
          rw [hstep]
          refine ⟨?_, ?_, ?_, ?_, hA5, hA6, hA7, ?_⟩
          · rw [hA1]
            simp only [List.length_append, List.length_drop, hAlen, hexplen]
            omega
          · rw [hA2, hexpA, take_append_ge _ _ _ hAk, ← List.append_assoc]
            congr 1
            congr 1
            simp only [List.length_append, List.length_drop, hAlen, hexplen]
            omega
          · rw [hA3]
            simp only [List.length_append, List.length_drop, hAlen]
            omega
          · rw [hA4, hexpA, drop_append_ge _ _ _ hAk]
            congr 1
            simp only [List.length_append, List.length_drop, hAlen, hexplen]
            omega
          · intro h1 _
            exfalso
            have h4 := congrArg List.length h1
            rw [hexplen] at h4
            simp only [List.length_nil] at h4
            omega
      · -- already at the edit offset
        exact opReadLoop_at_offset fuel st filled p ⟨hile, htmp, himpl⟩ hi (by omega)
          hfuel ih
    · -- past the last op: pass-through
      have hexpT : expect st = st.r.data.drop st.r.pos :=
        expect_of_stop st (Nat.le_of_not_lt hi)
      unfold ReadConcl
      simp only [opReadLoop, if_neg hi]
      by_cases hsrc : st.r.data.length ≤ st.r.pos
      · have hT : st.r.data.drop st.r.pos = [] := List.drop_eq_nil_of_le hsrc
        have hk : min p.length (expect st).length = 0 := by
          rw [hexpT, hT]
          simp
        simp only [srcRead_eof st.r p.length hsrc, List.append_nil, List.length_nil,
          Nat.add_zero, List.drop_zero, hk, List.take_zero]
        refine ⟨?_, ?_, ?_, ?_, ?_, ?_, ?_, ?_⟩
        · trivial
        · rw [List.take_left]
        · rw [List.length_append]
        · trivial
        · trivial
        · trivial
        · intro _
          rw [expect_of_stop _ (Nat.le_of_not_lt hi)]
          exact hT
        · exact fun _ _ => trivial
      · have hplt : st.r.pos < st.r.data.length := Nat.lt_of_not_le hsrc
        have hbsl : ((st.r.data.drop st.r.pos).take p.length).length
            = min p.length (st.r.data.length - st.r.pos) :=
          take_drop_length st.r.data st.r.pos p.length
        have hTlen : (st.r.data.drop st.r.pos).length = st.r.data.length - st.r.pos := by
          simp only [List.length_drop]
        have hk : min p.length (expect st).length
            = min p.length (st.r.data.length - st.r.pos) := by
          rw [hexpT, hTlen]
        simp only [srcRead_ok st.r p.length hplt, hbsl, hk]
        refine ⟨?_, ?_, ?_, ?_, ?_, ?_, ?_, ?_⟩
        · trivial
        · rw [List.take_left' (by rw [List.length_append, hbsl]), hexpT]
          congr 1
          rw [List.take_eq_take, hTlen]
          omega
        · simp only [List.length_append, List.length_drop, hbsl]
          omega
        · dsimp only [expect]
          rw [if_neg hi, if_neg hi, List.drop_drop]
        · exact ⟨hile, htmp, fun h => absurd h hi⟩
        · exact Or.inl trivial
        · intro h
          exact Option.noConfusion h
        · intro h1 _
          exfalso
          rw [hexpT] at h1
          have h4 := congrArg List.length h1
          rw [hTlen] at h4
          simp only [List.length_nil] at h4
          omega

/-- Draining an `opreader` through `io.Copy` from a consistent state produces
exactly the expected remaining output, with success. -/
theorem copyBuffer_drain : ∀ (fuel : Nat) (st : opreader) (buf acc : List Nat),
    Good st → buf ≠ [] → (expect st).length < fuel →
    ∃ st2, copyBuffer fuel st buf acc = some (acc ++ expect st, none, st2) := by
  intro fuel
  induction fuel with
  | zero =>
    intro st buf acc _ _ hf
    exact absurd hf (by omega)
  | succ fuel ih =>
    intro st buf acc hG hbuf hf
    obtain ⟨h1, h2, h3, h4, h5, h6, h7, h8⟩ :=
      opReadLoop_good (st.ops.length - st.i + 1) st [] buf hG (by omega)
    simp only [List.length_nil, Nat.zero_add, List.nil_append] at h1 h2 h3 h4
    by_cases hemp : expect st = []
    · have herr := h8 hemp hbuf
      refine ⟨(opReadLoop (st.ops.length - st.i + 1) st [] buf).st, ?_⟩
      simp only [copyBuffer, opreader.Read, herr]
      rw [h2, hemp]
      simp
    · rcases h6 with herr | herr
      · -- more to read: recurse
        have hlen : 0 < (expect st).length :=
          List.length_pos.mpr hemp
        have hblen : 0 < buf.length := List.length_pos.mpr hbuf
        have hmin : 0 < min buf.length (expect st).length := by omega
        obtain ⟨st2, hrec⟩ := ih (opReadLoop (st.ops.length - st.i + 1) st [] buf).st
          (opReadLoop (st.ops.length - st.i + 1) st [] buf).buf
          (acc ++ (expect st).take (min buf.length (expect st).length))
          h5 (by
            intro hnil
            rw [hnil] at h3
            simp only [List.length_nil] at h3
            omega)
          (by rw [h4]; simp only [List.length_drop]; omega)
        refine ⟨st2, ?_⟩
        simp only [copyBuffer, opreader.Read, herr]
        rw [h2, hrec, h4, List.append_assoc, List.take_append_drop]
      · -- the source was exhausted during this call: done
        have hexp2 := h7 herr
        rw [h4] at hexp2
        have hmin : min buf.length (expect st).length = (expect st).length := by
          have := congrArg List.length hexp2
          simp only [List.length_drop, List.length_nil] at this
          omega
        refine ⟨(opReadLoop (st.ops.length - st.i + 1) st [] buf).st, ?_⟩
        simp only [copyBuffer, opreader.Read, herr]
        rw [h2, hmin, List.take_length]

/-- The initial reader state for `ops` over `input` is consistent whenever
the documented precondition holds. -/
theorem Reader_good (ops : FileOps) (input : List Nat)
    (hv : validFrom 0 ops input.length = true) :
    Good (FileOps.Reader ops ⟨input, 0⟩) := by
  refine ⟨Nat.zero_le _,
    by simp only [FileOps.Reader, List.length_replicate]; omega,
    fun h => ⟨rfl, ?_, Nat.zero_le _⟩⟩
  dsimp only [FileOps.Reader]
  rw [List.drop_zero]
  exact hv

/-- The expected output of a fresh reader is the specification patch. -/
theorem Reader_expect (ops : FileOps) (input : List Nat) :
    expect (FileOps.Reader ops ⟨input, 0⟩) = specFrom 0 ops input := by
  rw [expect_spec _ rfl rfl]
  dsimp only [FileOps.Reader]
  rw [List.drop_zero]

/-- `FileOps.Copy` produces exactly the specification patch whenever the
edits are ascending, disjoint and within the source. -/
theorem Copy_spec (ops : FileOps) (input : List Nat)
    (hv : validFrom 0 ops input.length = true) :
    FileOps.Copy ops input = some (specFrom 0 ops input, none) := by
  have hlen : (expect (FileOps.Reader ops ⟨input, 0⟩)).length < copyFuel ops input := by
    rw [Reader_expect]
    have := specFrom_length_le 0 ops input hv
    simp only [copyFuel]
    omega
  obtain ⟨st2, hdr⟩ := copyBuffer_drain (copyFuel ops input)
    (FileOps.Reader ops ⟨input, 0⟩) (List.replicate 32768 0) []
    (Reader_good ops input hv)
    (by
      intro h
      have h2 := congrArg List.length h
      simp only [List.length_replicate, List.length_nil] at h2
      omega)
    hlen
  rw [Reader_expect] at hdr
  simp only [FileOps.Copy, hdr, Option.map_some, List.nil_append]
  rfl

/-- Applying a single in-range edit through the engine. -/
theorem Copy_single (e : FileOp) (s : List Nat) (h : e.Offset + e.Size ≤ s.length) :
    FileOps.Copy [e] s =
      some (s.take e.Offset ++ e.Data ++ s.drop (e.Offset + e.Size), none) := by
  have hv : validFrom 0 [e] s.length = true := by
    simp only [validFrom, Bool.and_eq_true, decide_eq_true_eq]
    omega
  rw [Copy_spec [e] s hv]
  simp only [specFrom, List.drop_zero, Nat.sub_zero]

/-- Sequential application: applying the remaining edits one at a time,
offsets re-derived by the accumulated length change `δ`, produces the tail
of the one-pass specification. -/
theorem seqApply_spec : ∀ (ops : List FileOp) (c : Nat) (δ : Int) (s input : List Nat),
    validFrom c ops input.length = true →
    (s.length : Int) = input.length + δ →
    0 ≤ (c : Int) + δ →
    s.drop (((c : Int) + δ).toNat) = input.drop c →
    seqApply ops δ s = some (s.take (((c : Int) + δ).toNat) ++ specFrom c ops input) := by
  intro ops
  induction ops with
  | nil =>
    intro c δ s input _ _ _ h4
    simp only [seqApply, specFrom, ← h4, List.take_append_drop]
  | cons o rest ih =>
    intro c δ s input hval hlen hge h4
    obtain ⟨hc, hrest⟩ := validFrom_cons hval
    have hoffL := validFrom_le hrest
    have hoff0 : 0 ≤ (o.Offset : Int) + δ := by omega
    have hsing : ((o.Offset : Int) + δ).toNat + o.Size ≤ s.length := by omega
    have htake_len : (s.take (((o.Offset : Int) + δ).toNat)).length
        = ((o.Offset : Int) + δ).toNat := by
      rw [List.length_take]
      omega
    simp only [seqApply, shiftOp, Copy_single ⟨((o.Offset : Int) + δ).toNat, o.Size, o.Data⟩
      s hsing]
    have hix : (((o.Offset + o.Size : Nat) : Int) + (δ + o.Data.length - o.Size)).toNat
        = (s.take (((o.Offset : Int) + δ).toNat) ++ o.Data).length := by
      rw [List.length_append, htake_len]
      omega
    have hout_drop :
        (s.take (((o.Offset : Int) + δ).toNat) ++ o.Data ++
          s.drop (((o.Offset : Int) + δ).toNat + o.Size)).drop
            ((((o.Offset + o.Size : Nat) : Int) + (δ + o.Data.length - o.Size)).toNat)
          = input.drop (o.Offset + o.Size) := by
      rw [hix, List.drop_left]
      have h5 := congrArg (List.drop (o.Offset + o.Size - c)) h4
      rw [List.drop_drop, List.drop_drop] at h5
      rw [show (((c : Int) + δ).toNat + (o.Offset + o.Size - c))
          = ((o.Offset : Int) + δ).toNat + o.Size from by omega] at h5
      rw [show c + (o.Offset + o.Size - c) = o.Offset + o.Size from by omega] at h5
      exact h5
    have hout_len : ((s.take (((o.Offset : Int) + δ).toNat) ++ o.Data ++
        s.drop (((o.Offset : Int) + δ).toNat + o.Size)).length : Int)
        = input.length + (δ + o.Data.length - o.Size) := by
      simp only [List.length_append, htake_len, List.length_drop]
      omega
    have hge2 : 0 ≤ ((o.Offset + o.Size : Nat) : Int) + (δ + o.Data.length - o.Size) := by
      omega
    rw [ih (o.Offset + o.Size) (δ + o.Data.length - o.Size)
      (s.take (((o.Offset : Int) + δ).toNat) ++ o.Data ++
        s.drop (((o.Offset : Int) + δ).toNat + o.Size)) input hrest hout_len hge2 hout_drop]
    congr 1
    rw [hix, List.take_left,
      show ((o.Offset : Int) + δ).toNat = ((c : Int) + δ).toNat + (o.Offset - c)
        from by omega,
      List.take_add, h4]
    simp only [specFrom, List.append_assoc]

/-- First `Read` of the truncation scenario: the edit offset lies past the
end of the source, so the preface copy drains the whole source and reports
no error. -/
theorem read_truncate_first (B off sz : Nat) (d input : List Nat)
    (h0 : 0 < input.length) (hoff : input.length < off) (hB : input.length ≤ B) :
    ∀ fuel, opReadLoop (fuel + 1)
      ⟨⟨input, 0⟩, [⟨off, sz, d⟩], 0, 0, 0, List.replicate 4096 0⟩ []
      (List.replicate B 0) =
      ⟨input ++ (List.replicate B 0).drop input.length, input.length, none,
        ⟨⟨input, input.length⟩, [⟨off, sz, d⟩], input.length, 0, 0,
          List.replicate 4096 0⟩⟩ := by
  intro fuel
  have hsr := srcRead_ok ⟨input, 0⟩ (min (List.replicate B (0:Nat)).length (off - 0))
    (by simpa using h0)
  have htk : ((input.drop 0).take (min (List.replicate B (0:Nat)).length (off - 0)))
      = input := by
    rw [List.drop_zero]
    refine List.take_of_length_le ?_
    simp only [List.length_replicate, Nat.sub_zero]
    omega
  simp only [opReadLoop, List.getD_cons_zero, List.length_cons, List.length_nil,
    Nat.zero_add, if_pos Nat.one_pos, if_pos (show (0:Nat) < off from by omega), hsr, htk,
    List.nil_append, if_pos (show input.length < off from by omega)]

/-- Second `Read` of the truncation scenario: the source is exhausted while
the edit offset is still unreached, and the reader reports plain `io.EOF`,
not an unexpected-end error. -/
theorem read_truncate_second (off sz : Nat) (d input buf : List Nat)
    (hoff : input.length < off) :
    ∀ fuel, opReadLoop (fuel + 1)
      ⟨⟨input, input.length⟩, [⟨off, sz, d⟩], input.length, 0, 0,
        List.replicate 4096 0⟩ [] buf =
      ⟨buf, 0, some StreamErr.eof,
        ⟨⟨input, input.length⟩, [⟨off, sz, d⟩], input.length, 0, 0,
          List.replicate 4096 0⟩⟩ := by
  intro fuel
  have hsr := srcRead_eof ⟨input, input.length⟩
    (min buf.length (off - input.length)) (le_refl _)
  simp only [opReadLoop, List.getD_cons_zero, List.length_cons, List.length_nil,
    Nat.zero_add, if_pos Nat.one_pos,
    if_pos (show input.length < off from by omega), hsr,
    List.nil_append, List.append_nil, List.drop_zero, Nat.add_zero]

/-- The full truncation run: `io.Copy` over the reader returns the truncated
source with a nil error whenever the single edit's offset lies past the end
of the source. -/
theorem copy_truncates (B off sz : Nat) (d input : List Nat)
    (h0 : 0 < input.length) (hoff : input.length < off) (hB : input.length ≤ B) :
    ∀ g, copyBuffer (g + 1 + 1)
      (FileOps.Reader [⟨off, sz, d⟩] ⟨input, 0⟩) (List.replicate B 0) [] =
      some (input, none,
        ⟨⟨input, input.length⟩, [⟨off, sz, d⟩], input.length, 0, 0,
          List.replicate 4096 0⟩) := by
  intro g
  simp only [copyBuffer, opreader.Read, FileOps.Reader, List.length_cons,
    List.length_nil, Nat.zero_add, Nat.sub_zero,
    read_truncate_first B off sz d input h0 hoff hB,
    read_truncate_second off sz d input _ hoff,
    List.take_left, List.take_zero, List.append_nil, List.nil_append]

/-- Pass-through read once the single deletion op is finished and the
source is exhausted.  The scratch buffer contents `T` are irrelevant. -/
theorem read_c10_inner (T buf : List Nat) :
    ∀ fuel, opReadLoop (fuel + 1)
      ⟨⟨[65, 66], 2⟩, [⟨0, 2, []⟩], 2, 1, 0, T⟩ [] buf =
      ⟨buf, 0, some StreamErr.eof, ⟨⟨[65, 66], 2⟩, [⟨0, 2, []⟩], 2, 1, 0, T⟩⟩ := by
  intro fuel
  have hsr := srcRead_eof ⟨[65, 66], 2⟩ buf.length (by decide)
  simp only [opReadLoop, List.length_cons, List.length_nil,
    if_neg (show ¬ (1:Nat) < 0 + 1 from by omega), hsr,
    List.nil_append, List.append_nil, List.drop_zero, Nat.add_zero, Nat.zero_add]

/-- The discard loop of the deletion op reads the two discarded source bytes
into the caller's buffer (used as scratch because it is longer than the
owned scratch buffer). -/
theorem discard_c10 (P : Nat) (hP : 2 ≤ P) :
    discardLoop 2 ⟨[65, 66], 0⟩ 0 2 (List.replicate P 7) =
      ⟨⟨[65, 66], 2⟩, 2, [65, 66] ++ (List.replicate P 7).drop 2, none⟩ := by
  have hsr := srcRead_ok ⟨[65, 66], 0⟩ 2 (by decide)
  have hmin : min (2 - 0) (List.replicate P (7:Nat)).length = 2 := by
    simp only [List.length_replicate]
    omega
  simp only [Nat.sub_zero] at hmin
  simp only [discardLoop, Nat.sub_zero, hmin, hsr,
    if_pos (show (0:Nat) < 2 from by omega),
    show ([65, 66] : List Nat).drop 0 = [65, 66] from rfl,
    show (([65, 66] : List Nat).take 2) = [65, 66] from rfl,
    show (([65, 66] : List Nat)).length = 2 from rfl,
    if_neg (show ¬ (2:Nat) < 2 from by omega)]

set_option maxHeartbeats 800000 in
/-- One step of the C10 `Read`: the deletion op at the start of the source
is processed by discarding into the caller buffer (longer than the scratch
buffer `T`), leaving a pass-through state reading into the mutated buffer. -/
theorem read_c10_step (T : List Nat) (P : Nat) (hT : T.length < P) (h2 : 2 ≤ P)
    (f : Nat) :
    opReadLoop (f + 1) ⟨⟨[65, 66], 0⟩, [⟨0, 2, []⟩], 0, 0, 0, T⟩ []
      (List.replicate P 7) =
    opReadLoop f ⟨⟨[65, 66], 2⟩, [⟨0, 2, []⟩], 2, 1, 0, T⟩ []
      ([65, 66] ++ (List.replicate P 7).drop 2) := by
  simp only [opReadLoop, List.getD_cons_zero, List.length_cons, List.length_nil,
    List.length_replicate, Nat.zero_add, Nat.add_zero, List.drop_zero, List.drop_nil,
    List.take_nil, List.nil_append, List.append_nil]
  simp only [if_pos Nat.one_pos, if_neg (lt_irrefl (0:Nat))]
  simp only [List.length_nil, List.drop_zero, Nat.sub_zero, Nat.add_zero, Nat.zero_add,
    List.nil_append, List.append_nil, List.take_nil, List.drop_nil, List.length_replicate,
    if_neg (lt_irrefl (0:Nat)), if_pos (show T.length < P from hT)]
  simp only [discard_c10 P h2, if_pos rfl, if_true]

/-- A `Read` with a buffer longer than the scratch buffer `T`, against a
source consisting exactly of the two bytes a deletion op discards: the
discarded bytes are written into the caller buffer even though `n = 0` is
reported with `io.EOF`. -/
theorem read_c10_general (T : List Nat) (P : Nat) (hT : T.length < P) (h2 : 2 ≤ P) :
    ∀ fuel, opReadLoop (fuel + 2)
      ⟨⟨[65, 66], 0⟩, [⟨0, 2, []⟩], 0, 0, 0, T⟩ [] (List.replicate P 7) =
      ⟨[65, 66] ++ (List.replicate P 7).drop 2, 0, some StreamErr.eof,
        ⟨⟨[65, 66], 2⟩, [⟨0, 2, []⟩], 2, 1, 0, T⟩⟩ :=
  fun fuel => (read_c10_step T P hT h2 (fuel + 1)).trans
    (read_c10_inner T ([65, 66] ++ (List.replicate P 7).drop 2) fuel)

/-- The C10 `Read` through `FileOps.Reader`, whose scratch buffer is the
4096-byte allocation. -/
theorem read_c10 (P : Nat) (hP : 4096 < P) :
    opreader.Read (FileOps.Reader [⟨0, 2, []⟩] ⟨[65, 66], 0⟩) (List.replicate P 7) =
      ⟨[65, 66] ++ (List.replicate P 7).drop 2, 0, some StreamErr.eof,
        ⟨⟨[65, 66], 2⟩, [⟨0, 2, []⟩], 2, 1, 0, List.replicate 4096 0⟩⟩ :=
  read_c10_general (List.replicate 4096 0) P
    (by simp only [List.length_replicate]; omega) (by omega) 0

/-- A single `Read` call from a fresh reader with a caller buffer at least as
long as the whole patched output returns the entire output in one pull. -/
theorem Read_single_pull (ops : FileOps) (input p : List Nat)
    (hv : validFrom 0 ops input.length = true)
    (hP : (specFrom 0 ops input).length ≤ p.length) :
    (opreader.Read (FileOps.Reader ops ⟨input, 0⟩) p).buf.take
        (opreader.Read (FileOps.Reader ops ⟨input, 0⟩) p).n
      = specFrom 0 ops input := by
  have hG := Reader_good ops input hv
  have he := Reader_expect ops input
  obtain ⟨h1, h2, h3, h4, h5, h6, h7, h8⟩ :=
    opReadLoop_good ((FileOps.Reader ops ⟨input, 0⟩).ops.length
        - (FileOps.Reader ops ⟨input, 0⟩).i + 1)
      (FileOps.Reader ops ⟨input, 0⟩) [] p hG (by omega)
  rw [he] at h2
  rw [Nat.min_eq_right hP, List.take_length] at h2
  simp only [List.nil_append] at h2
  exact h2

/-- Every byte of `p.map (fun x => 0)` is zero. -/
theorem map_const_zero (p : List Nat) :
    p.map (fun _ => (0 : Nat)) = List.replicate p.length 0 := by
  induction p with
  | nil => rfl
  | cons a t ih => simp [List.replicate_succ, ih]

/-- C1: an edit whose offset lies past the end of the source.  The spec
requires an unexpected-end-of-source failure and forbids a silently
truncated output with a success indication; the engine returns the
truncated source with a `nil` error. -/
theorem C1_silent_truncation :
    FileOps.Copy [⟨5, 0, [88, 89]⟩] [65, 66, 67] = some ([65, 66, 67], none) := by
  have h := copy_truncates 32768 5 0 [88, 89] [65, 66, 67] (by decide) (by decide)
    (by decide) 5
  simp only [FileOps.Copy]
  rw [show copyFuel [⟨5, 0, [88, 89]⟩] [65, 66, 67] = 5 + 1 + 1 from rfl, h]
  rfl

/-- C2: a single in-range edit `{offset o, size s, data d}` on a source of
length at least `o + s` drains to `input[0:o] ++ d ++ input[o+s:]`, whose
length is `L - s + len d` (covering overwrite, insertion and deletion). -/
theorem C2_single_edit (o s : Nat) (d input : List Nat) (h : o + s ≤ input.length) :
    FileOps.Copy [⟨o, s, d⟩] input
      = some (input.take o ++ d ++ input.drop (o + s), none) ∧
    (input.take o ++ d ++ input.drop (o + s)).length = input.length - s + d.length := by
  refine ⟨Copy_single ⟨o, s, d⟩ input h, ?_⟩
  simp only [List.length_append, List.length_take, List.length_drop]
  omega

theorem C2_single_edit_witness :
    2 + 3 ≤ ([65, 66, 67, 68, 69, 70, 71, 72, 73, 74] : List Nat).length ∧
    FileOps.Copy [⟨2, 3, [120, 121, 122]⟩] [65, 66, 67, 68, 69, 70, 71, 72, 73, 74]
      = some ([65, 66, 120, 121, 122, 70, 71, 72, 73, 74], none) :=
  ⟨by decide,
    (C2_single_edit 2 3 [120, 121, 122] [65, 66, 67, 68, 69, 70, 71, 72, 73, 74]
      (by decide)).1⟩

/-- C3: buffer-size independence.  For any pull-buffer size `k ≥ 1`, the
concatenation of the bytes produced by repeated `Read` calls until
end-of-stream equals the output of a single pull with a buffer `P` large
enough to hold the whole output, namely the specification patch. -/
theorem C3_buffer_size_independence (ops : FileOps) (input : List Nat) (k P : Nat)
    (hv : validFrom 0 ops input.length = true) (hk : 1 ≤ k)
    (hP : (specFrom 0 ops input).length ≤ P) :
    (opreader.Read (FileOps.Reader ops ⟨input, 0⟩) (List.replicate P 0)).buf.take
        (opreader.Read (FileOps.Reader ops ⟨input, 0⟩) (List.replicate P 0)).n
      = specFrom 0 ops input ∧
    ∃ st2, copyBuffer (copyFuel ops input) (FileOps.Reader ops ⟨input, 0⟩)
        (List.replicate k 0) [] = some (specFrom 0 ops input, none, st2) := by
  refine ⟨Read_single_pull ops input (List.replicate P 0) hv
    (by rw [List.length_replicate]; exact hP), ?_⟩
  have hlen2 : (expect (FileOps.Reader ops ⟨input, 0⟩)).length < copyFuel ops input := by
    rw [Reader_expect]
    have := specFrom_length_le 0 ops input hv
    simp only [copyFuel]
    omega
  obtain ⟨st2, hdr⟩ := copyBuffer_drain (copyFuel ops input) (FileOps.Reader ops ⟨input, 0⟩)
    (List.replicate k 0) [] (Reader_good ops input hv)
    (by
      intro hnil
      have := congrArg List.length hnil
      simp only [List.length_replicate, List.length_nil] at this
      omega)
    hlen2
  rw [Reader_expect] at hdr
  simp only [List.nil_append] at hdr
  exact ⟨st2, hdr⟩

theorem C3_buffer_size_independence_witness :
    (validFrom 0 [⟨2, 3, [120, 121, 122]⟩]
        ([65, 66, 67, 68, 69, 70, 71, 72, 73, 74] : List Nat).length = true ∧
      1 ≤ 1 ∧
      (specFrom 0 [⟨2, 3, [120, 121, 122]⟩]
        [65, 66, 67, 68, 69, 70, 71, 72, 73, 74]).length ≤ 10) ∧
    ((opreader.Read (FileOps.Reader [⟨2, 3, [120, 121, 122]⟩]
          ⟨[65, 66, 67, 68, 69, 70, 71, 72, 73, 74], 0⟩) (List.replicate 10 0)).buf.take
        (opreader.Read (FileOps.Reader [⟨2, 3, [120, 121, 122]⟩]
          ⟨[65, 66, 67, 68, 69, 70, 71, 72, 73, 74], 0⟩) (List.replicate 10 0)).n
      = specFrom 0 [⟨2, 3, [120, 121, 122]⟩] [65, 66, 67, 68, 69, 70, 71, 72, 73, 74] ∧
    ∃ st2, copyBuffer
        (copyFuel [⟨2, 3, [120, 121, 122]⟩] [65, 66, 67, 68, 69, 70, 71, 72, 73, 74])
        (FileOps.Reader [⟨2, 3, [120, 121, 122]⟩]
          ⟨[65, 66, 67, 68, 69, 70, 71, 72, 73, 74], 0⟩)
        (List.replicate 1 0) []
      = some (specFrom 0 [⟨2, 3, [120, 121, 122]⟩]
          [65, 66, 67, 68, 69, 70, 71, 72, 73, 74], none, st2)) :=
  ⟨⟨by decide, by decide, by decide⟩,
    C3_buffer_size_independence [⟨2, 3, [120, 121, 122]⟩]
      [65, 66, 67, 68, 69, 70, 71, 72, 73, 74] 1 10
      (by decide) (by decide) (by decide)⟩

/-- C4: composability.  Applying valid edits in one pass yields the same
bytes as applying them one at a time in ascending original-offset order,
each single application running on the previous result with its offset
re-derived against that result. -/
theorem C4_sequential_composition (ops : FileOps) (input : List Nat)
    (hv : validFrom 0 ops input.length = true) :
    ∃ out, FileOps.Copy ops input = some (out, none) ∧
      seqApply ops 0 input = some out := by
  refine ⟨specFrom 0 ops input, Copy_spec ops input hv, ?_⟩
  have h := seqApply_spec ops 0 0 input input hv (by omega) (by omega)
    (by norm_num)
  simpa using h

theorem C4_sequential_composition_witness :
    validFrom 0 [⟨1, 1, [100]⟩, ⟨3, 0, [101]⟩]
      ([65, 66, 67, 68] : List Nat).length = true ∧
    ∃ out, FileOps.Copy [⟨1, 1, [100]⟩, ⟨3, 0, [101]⟩] [65, 66, 67, 68]
        = some (out, none) ∧
      seqApply [⟨1, 1, [100]⟩, ⟨3, 0, [101]⟩] 0 [65, 66, 67, 68] = some out :=
  ⟨by decide,
    C4_sequential_composition [⟨1, 1, [100]⟩, ⟨3, 0, [101]⟩] [65, 66, 67, 68] (by decide)⟩

/-- C5: identity.  An empty edit set drains to exactly the input bytes, for
every input including the empty one. -/
theorem C5_identity (input : List Nat) : FileOps.Copy [] input = some (input, none) := by
  have h := Copy_spec [] input (by simp [validFrom])
  simpa [specFrom] using h

/-- C6: `FileOps` is a plain slice type; forming one performs no validation
and cannot fail, so no ordering or overlap invariant is checked at
construction time. -/
theorem C6_construction_unvalidated (l : List FileOp) : mkFileOps l = Except.ok l := rfl

/-- Overlapping, non-ascending edits are accepted by construction: there is
no validating constructor that could fail with an invalid-edit-set error. -/
theorem C6_overlap_accepted :
    ascendingDisjoint [⟨0, 2, [1]⟩, ⟨1, 2, [2]⟩] = false ∧
    mkFileOps [⟨0, 2, [1]⟩, ⟨1, 2, [2]⟩] = Except.ok [⟨0, 2, [1]⟩, ⟨1, 2, [2]⟩] :=
  ⟨rfl, rfl⟩

/-- C9: `zerofill` zeroes every byte of `p`, not only the first
`min maxfill (len p)`; the returned count is `min (len p) maxfill`. -/
theorem C9_zerofill_all (p : List Nat) (maxfill : Int) :
    zerofill p maxfill = (List.replicate p.length 0, min (p.length : Int) maxfill) := by
  simp only [zerofill, map_const_zero]
  rcases le_or_lt maxfill (p.length : Int) with h | h
  · rw [if_neg (not_lt.mpr h), min_eq_right h]
  · rw [if_pos h, min_eq_left h.le]

/-- On `p = [7, 7]` with `maxfill = 1`, the byte of `p` beyond the returned
count 1 is zeroed rather than left unchanged: the result is `[0, 0]`, not
`[0, 7]`. -/
theorem C9_zerofill_counterexample :
    zerofill [7, 7] 1 = ([0, 0], 1) ∧ ([0, 0] : List Nat) ≠ [0, 7] := by
  decide

/-- C10: a single `Read` whose caller buffer (4097 sevens) is longer than
the 4096-byte scratch buffer, over a valid single deletion op covering the
whole two-byte source: the call reports `n = 0` with `io.EOF`, yet the
discarded source bytes `[65, 66]` have been written into the buffer at
indices at or beyond `n`. -/
theorem C10_buffer_mutation :
    validFrom 0 [⟨0, 2, []⟩] ([65, 66] : List Nat).length = true ∧
    (opreader.Read (FileOps.Reader [⟨0, 2, []⟩] ⟨[65, 66], 0⟩)
        (List.replicate 4097 7)).n = 0 ∧
    (opreader.Read (FileOps.Reader [⟨0, 2, []⟩] ⟨[65, 66], 0⟩)
        (List.replicate 4097 7)).buf.take 2 = [65, 66] ∧
    (List.replicate 4097 (7 : Nat)).take 2 ≠ [65, 66] := by
  have h := read_c10 4097 (by omega)
  refine ⟨by decide, ?_, ?_, ?_⟩
  · rw [h]
  · rw [h]
    exact List.take_left' rfl
  · rw [List.take_replicate]
    decide

end Metadata

namespace Exif

/-- Go package-level `jfifChunkHeader = []byte("\xff\xe0--JFIF\x00")`. -/
def jfifChunkHeader0 : List Nat := [0xff, 0xe0, 45, 45, 74, 70, 73, 70, 0]

/-- Go package-level `jfxxChunkHeader = []byte("\xff\xe0--JFXX\x00")`. -/
def jfxxChunkHeader0 : List Nat := [0xff, 0xe0, 45, 45, 74, 70, 88, 88, 0]

/-- Go package-level `exifChunkHeader = []byte("\xff\xe1--Exif\x00\x00")`
(never reassigned by `Copy`). -/
def exifChunkHeader : List Nat := [0xff, 0xe1, 45, 45, 69, 120, 105, 102, 0, 0]

/-- Go `cmpChunkHeader`: `p` is at least as long as `h` and agrees with `h`
everywhere except at indices 2 and 3 (the chunk length bytes). -/
def cmpChunkHeader (p h : List Nat) : Bool :=
  decide (h.length ≤ p.length) &&
    (List.range h.length).all fun i =>
      decide (i = 2) || decide (i = 3) || decide (p.getD i 0 = h.getD i 0)

/-- State of the chunk-collection loop in `exif.Copy`: the two mutable
package-level header variables, the local `chunks`, `jfifChunk`,
`jfxxChunk` (Go `nil` is `none`), `hasExif` and `has`. -/
structure CopySt where
  jfifHeader : List Nat
  jfxxHeader : List Nat
  chunks : List (List Nat)
  jfifChunk : Option (List Nat)
  jfxxChunk : Option (List Nat)
  hasExif : Bool
  has : Nat
deriving DecidableEq, Repr

/-- One iteration of the `switch` in the chunk loop of `exif.Copy`.
On a JFIF/JFXX match the package-level header variable is reassigned to the
matched chunk (`jfifChunkHeader = chunk`); the local `jfifChunk`/`jfxxChunk`
is never assigned. -/
def copyStep (s : CopySt) (chunk : List Nat) : CopySt :=
  if s.jfifChunk = none ∧ cmpChunkHeader chunk s.jfifHeader then
    { s with jfifHeader := chunk, has := s.has + 1 }
  else if s.jfxxChunk = none ∧ cmpChunkHeader chunk s.jfxxHeader then
    { s with jfxxHeader := chunk, has := s.has + 1 }
  else if s.hasExif = false ∧ cmpChunkHeader chunk exifChunkHeader then
    { s with hasExif := true, has := s.has + 1 }
  else { s with chunks := s.chunks ++ [chunk] }

/-- The chunk loop `for has < 3 && j.Next()`, returning the final state and
the chunks left unread by the scanner. -/
def chunkLoop (s : CopySt) : List (List Nat) → CopySt × List (List Nat)
  | [] => (s, [])
  | c :: rest => if s.has < 3 then chunkLoop (copyStep s c) rest else (s, c :: rest)

/-- Bytes written for a possibly-nil chunk variable: `w.Write(nil)` writes
nothing. -/
def optBytes : Option (List Nat) → List Nat
  | none => []
  | some b => b

/-- Go `exif.Copy`, abstracted over the JPEG scanner: the input is the
sequence of chunks the scanner yields plus the trailing unframed bytes
(image data).  `exifdata` is the encoded replacement Exif chunk to write
(`none` when `x == nil`; the bytes produced by `xjpeg.WriteChunk`, whose
internals are outside this package, are taken as given).  `g0jfif`/`g0jfxx`
are the package-level header variables at entry.  The first result is the
bytes written to `w` (`none` models the Go panic when `chunks` is empty at
`chunks[0]`); the second is the final loop state, whose `jfifHeader` and
`jfxxHeader` fields are the package-level variables after the call. -/
def Copy (g0jfif g0jfxx : List Nat) (exifdata : Option (List Nat))
    (chunkList : List (List Nat)) (trailer : List Nat) :
    Option (List Nat) × CopySt :=
  let s0 : CopySt := ⟨g0jfif, g0jfxx, [], none, none, false, 0⟩
  let r := chunkLoop s0 chunkList
  let s := r.1
  match s.chunks with
  | [] => (none, s)
  | c0 :: crest =>
    (some (c0 ++ optBytes s.jfifChunk ++ optBytes s.jfxxChunk ++ optBytes exifdata ++
        crest.flatten ++ r.2.flatten ++ trailer), s)

/-- A chunk matching none of the three header templates is appended to the
local `chunks` slice and nothing else changes. -/
theorem copyStep_no_match (s : CopySt) (c : List Nat)
    (h1 : cmpChunkHeader c s.jfifHeader = false)
    (h2 : cmpChunkHeader c s.jfxxHeader = false)
    (h3 : cmpChunkHeader c exifChunkHeader = false) :
    copyStep s c = { s with chunks := s.chunks ++ [c] } := by
  simp [copyStep, h1, h2, h3]

/-- A chunk matching the JFIF template while the local `jfifChunk` is nil
reassigns the package-level header variable to the chunk; the local stays
nil and the chunk is not collected. -/
theorem copyStep_jfif (s : CopySt) (c : List Nat)
    (h0 : s.jfifChunk = none) (h1 : cmpChunkHeader c s.jfifHeader = true) :
    copyStep s c = { s with jfifHeader := c, has := s.has + 1 } := by
  simp [copyStep, h0, h1]

/-- The JFXX analogue of `copyStep_jfif`. -/
theorem copyStep_jfxx (s : CopySt) (c : List Nat)
    (h1 : cmpChunkHeader c s.jfifHeader = false)
    (h0 : s.jfxxChunk = none) (h2 : cmpChunkHeader c s.jfxxHeader = true) :
    copyStep s c = { s with jfxxHeader := c, has := s.has + 1 } := by
  simp [copyStep, h1, h0, h2]

/-- Full run of `exif.Copy` on an SOI chunk followed by one JFIF-matching
chunk: the matched chunk is consumed into the package-level header variable
and never written; the output is the SOI chunk plus the trailer. -/
theorem copy_two_chunks_jfif (c trailer : List Nat)
    (h1 : cmpChunkHeader c jfifChunkHeader0 = true) :
    Copy jfifChunkHeader0 jfxxChunkHeader0 none [[255, 216], c] trailer =
      (some ([255, 216] ++ trailer),
        ⟨c, jfxxChunkHeader0, [[255, 216]], none, none, false, 1⟩) := by
  have c0 : cmpChunkHeader [255, 216] jfifChunkHeader0 = false := by decide
  have c1 : cmpChunkHeader [255, 216] jfxxChunkHeader0 = false := by decide
  have c2 : cmpChunkHeader [255, 216] exifChunkHeader = false := by decide
  have e0 := copyStep_no_match ⟨jfifChunkHeader0, jfxxChunkHeader0, [], none, none, false, 0⟩
    [255, 216] c0 c1 c2
  have e1 := copyStep_jfif ⟨jfifChunkHeader0, jfxxChunkHeader0, [[255, 216]], none, none,
    false, 0⟩ c rfl h1
  simp only [Copy, chunkLoop, e0, e1, List.nil_append]
  simp [optBytes]

/-- Full run of `exif.Copy` on an SOI chunk followed by one JFXX-matching
chunk. -/
theorem copy_two_chunks_jfxx (c trailer : List Nat)
    (h1 : cmpChunkHeader c jfifChunkHeader0 = false)
    (h2 : cmpChunkHeader c jfxxChunkHeader0 = true) :
    Copy jfifChunkHeader0 jfxxChunkHeader0 none [[255, 216], c] trailer =
      (some ([255, 216] ++ trailer),
        ⟨jfifChunkHeader0, c, [[255, 216]], none, none, false, 1⟩) := by
  have c0 : cmpChunkHeader [255, 216] jfifChunkHeader0 = false := by decide
  have c1 : cmpChunkHeader [255, 216] jfxxChunkHeader0 = false := by decide
  have c2 : cmpChunkHeader [255, 216] exifChunkHeader = false := by decide
  have e0 := copyStep_no_match ⟨jfifChunkHeader0, jfxxChunkHeader0, [], none, none, false, 0⟩
    [255, 216] c0 c1 c2
  have e1 := copyStep_jfxx ⟨jfifChunkHeader0, jfxxChunkHeader0, [[255, 216]], none, none,
    false, 0⟩ c h1 rfl h2
  simp only [Copy, chunkLoop, e0, e1, List.nil_append]
  simp [optBytes]

/-- C7: `exif.Copy` compares incoming chunks against the shared package-level
header variables and, on a match, reassigns that same shared variable to the
matched chunk, so after the call the template no longer equals its original
pattern (for JFIF and for JFXX alike). -/
theorem C7_shared_template_corrupted (c c2 trailer : List Nat)
    (h1 : cmpChunkHeader c jfifChunkHeader0 = true) (hne : c ≠ jfifChunkHeader0)
    (h3 : cmpChunkHeader c2 jfifChunkHeader0 = false)
    (h4 : cmpChunkHeader c2 jfxxChunkHeader0 = true) (hne2 : c2 ≠ jfxxChunkHeader0) :
    ((Copy jfifChunkHeader0 jfxxChunkHeader0 none [[255, 216], c] trailer).2.jfifHeader
        = c ∧
      (Copy jfifChunkHeader0 jfxxChunkHeader0 none [[255, 216], c] trailer).2.jfifHeader
        ≠ jfifChunkHeader0) ∧
    ((Copy jfifChunkHeader0 jfxxChunkHeader0 none [[255, 216], c2] trailer).2.jfxxHeader
        = c2 ∧
      (Copy jfifChunkHeader0 jfxxChunkHeader0 none [[255, 216], c2] trailer).2.jfxxHeader
        ≠ jfxxChunkHeader0) := by
  rw [copy_two_chunks_jfif c trailer h1, copy_two_chunks_jfxx c2 trailer h3 h4]
  exact ⟨⟨rfl, hne⟩, rfl, hne2⟩

theorem C7_shared_template_corrupted_witness :
    (cmpChunkHeader [255, 224, 0, 16, 74, 70, 73, 70, 0] jfifChunkHeader0 = true ∧
      [255, 224, 0, 16, 74, 70, 73, 70, 0] ≠ jfifChunkHeader0 ∧
      cmpChunkHeader [255, 224, 0, 16, 74, 70, 88, 88, 0] jfifChunkHeader0 = false ∧
      cmpChunkHeader [255, 224, 0, 16, 74, 70, 88, 88, 0] jfxxChunkHeader0 = true ∧
      [255, 224, 0, 16, 74, 70, 88, 88, 0] ≠ jfxxChunkHeader0) ∧
    ((Copy jfifChunkHeader0 jfxxChunkHeader0 none
          [[255, 216], [255, 224, 0, 16, 74, 70, 73, 70, 0]] [1, 2]).2.jfifHeader
        = [255, 224, 0, 16, 74, 70, 73, 70, 0] ∧
      (Copy jfifChunkHeader0 jfxxChunkHeader0 none
          [[255, 216], [255, 224, 0, 16, 74, 70, 73, 70, 0]] [1, 2]).2.jfifHeader
        ≠ jfifChunkHeader0) ∧
    ((Copy jfifChunkHeader0 jfxxChunkHeader0 none
          [[255, 216], [255, 224, 0, 16, 74, 70, 88, 88, 0]] [1, 2]).2.jfxxHeader
        = [255, 224, 0, 16, 74, 70, 88, 88, 0] ∧
      (Copy jfifChunkHeader0 jfxxChunkHeader0 none
          [[255, 216], [255, 224, 0, 16, 74, 70, 88, 88, 0]] [1, 2]).2.jfxxHeader
        ≠ jfxxChunkHeader0) :=
  ⟨⟨by decide, by decide, by decide, by decide, by decide⟩,
    C7_shared_template_corrupted [255, 224, 0, 16, 74, 70, 73, 70, 0]
      [255, 224, 0, 16, 74, 70, 88, 88, 0] [1, 2]
      (by decide) (by decide) (by decide) (by decide) (by decide)⟩

/-- `copyStep` never assigns the local `jfifChunk`/`jfxxChunk` variables:
every branch of the switch leaves them unchanged. -/
theorem copyStep_locals (s : CopySt) (c : List Nat) :
    (copyStep s c).jfifChunk = s.jfifChunk ∧ (copyStep s c).jfxxChunk = s.jfxxChunk := by
  unfold copyStep
  split
  · exact ⟨rfl, rfl⟩
  · split
    · exact ⟨rfl, rfl⟩
    · split
      · exact ⟨rfl, rfl⟩
      · exact ⟨rfl, rfl⟩

/-- The chunk loop never assigns the local `jfifChunk`/`jfxxChunk`
variables. -/
theorem chunkLoop_locals (l : List (List Nat)) : ∀ s : CopySt,
    (chunkLoop s l).1.jfifChunk = s.jfifChunk ∧
      (chunkLoop s l).1.jfxxChunk = s.jfxxChunk := by
  induction l with
  | nil => intro s; exact ⟨rfl, rfl⟩
  | cons c rest ih =>
    intro s
    by_cases h : s.has < 3
    · simp only [chunkLoop, if_pos h]
      have h1 := ih (copyStep s c)
      have h2 := copyStep_locals s c
      exact ⟨h1.1.trans h2.1, h1.2.trans h2.2⟩
    · constructor <;> simp only [chunkLoop, if_neg h]

/-- A fully consumed prefix of the chunk list composes with the rest of the
run. -/
theorem chunkLoop_append (pre : List (List Nat)) :
    ∀ (rest : List (List Nat)) (s : CopySt), (chunkLoop s pre).2 = [] →
      chunkLoop s (pre ++ rest) = chunkLoop (chunkLoop s pre).1 rest := by
  induction pre with
  | nil => intro rest s _; rfl
  | cons c t ih =>
    intro rest s hpre
    by_cases h : s.has < 3
    · simp only [List.cons_append, chunkLoop, if_pos h] at hpre ⊢
      exact ih rest (copyStep s c) hpre
    · simp only [chunkLoop, if_neg h] at hpre
      exact absurd hpre (by simp)

/-- The chunks the loop leaves unread are a suffix of its input. -/
theorem chunkLoop_unread (l : List (List Nat)) : ∀ s : CopySt,
    ∃ k, (chunkLoop s l).2 = l.drop k := by
  induction l with
  | nil => intro s; exact ⟨0, rfl⟩
  | cons c t ih =>
    intro s
    by_cases h : s.has < 3
    · obtain ⟨k, hk⟩ := ih (copyStep s c)
      refine ⟨k + 1, ?_⟩
      simp only [chunkLoop, if_pos h, List.drop_succ_cons]
      exact hk
    · exact ⟨0, by simp only [chunkLoop, if_neg h, List.drop_zero]⟩

/-- For every input whatsoever, the locals stay nil and the bytes written
are the first collected chunk, the exif data, the remaining collected
chunks, the unread chunks and the trailer — the two `optBytes` writes of
the nil locals contribute nothing. -/
theorem Copy_output (g0jfif g0jfxx : List Nat) (exifdata : Option (List Nat))
    (chunkList : List (List Nat)) (trailer : List Nat) :
    (Copy g0jfif g0jfxx exifdata chunkList trailer).2.jfifChunk = none ∧
    (Copy g0jfif g0jfxx exifdata chunkList trailer).2.jfxxChunk = none ∧
    (Copy g0jfif g0jfxx exifdata chunkList trailer).1
      = match (chunkLoop ⟨g0jfif, g0jfxx, [], none, none, false, 0⟩ chunkList).1.chunks with
        | [] => none
        | c0 :: crest => some (c0 ++ optBytes exifdata ++ crest.flatten ++
            (chunkLoop ⟨g0jfif, g0jfxx, [], none, none, false, 0⟩ chunkList).2.flatten ++
            trailer) := by
  obtain ⟨h1, h2⟩ := chunkLoop_locals chunkList ⟨g0jfif, g0jfxx, [], none, none, false, 0⟩
  have h1n : (chunkLoop ⟨g0jfif, g0jfxx, [], none, none, false, 0⟩ chunkList).1.jfifChunk
      = none := h1.trans rfl
  have h2n : (chunkLoop ⟨g0jfif, g0jfxx, [], none, none, false, 0⟩ chunkList).1.jfxxChunk
      = none := h2.trans rfl
  rcases hc : (chunkLoop ⟨g0jfif, g0jfxx, [], none, none, false, 0⟩ chunkList).1.chunks with
    _ | ⟨c0, crest⟩
  · refine ⟨?_, ?_, ?_⟩
    · simp only [Copy, hc]
      exact h1n
    · simp only [Copy, hc]
      exact h2n
    · simp only [Copy, hc]
  · refine ⟨?_, ?_, ?_⟩
    · simp only [Copy, hc]
      exact h1n
    · simp only [Copy, hc]
      exact h2n
    · simp only [Copy, hc, h1n, h2n, optBytes, List.append_nil]

/-- C8: universally, a chunk matched against the JFIF or JFXX template is
never written to the destination.  For every initial header templates,
exif data, trailer and chunk stream `pre ++ c :: post` in which the loop
consumes `pre` and then matches `c` (against the evolving JFIF template, or
against the evolving JFXX template while missing the JFIF one): the locals
`jfifChunk`/`jfxxChunk` are never assigned, so their writes emit nothing;
the matched chunk is consumed into a package-level header variable and not
collected; the run continues on `post` from that state, leaving only a
suffix of `post` unread; and the bytes written consist solely of the other
collected chunks, the exif data, the unread chunks and the trailer. -/
theorem C8_matched_chunk_not_written (g0jfif g0jfxx : List Nat)
    (exifdata : Option (List Nat)) (pre post : List (List Nat)) (c trailer : List Nat)
    (hpre : (chunkLoop ⟨g0jfif, g0jfxx, [], none, none, false, 0⟩ pre).2 = [])
    (hhas : (chunkLoop ⟨g0jfif, g0jfxx, [], none, none, false, 0⟩ pre).1.has < 3)
    (hmatch :
      cmpChunkHeader c
          (chunkLoop ⟨g0jfif, g0jfxx, [], none, none, false, 0⟩ pre).1.jfifHeader = true ∨
        (cmpChunkHeader c
            (chunkLoop ⟨g0jfif, g0jfxx, [], none, none, false, 0⟩ pre).1.jfifHeader
              = false ∧
          cmpChunkHeader c
            (chunkLoop ⟨g0jfif, g0jfxx, [], none, none, false, 0⟩ pre).1.jfxxHeader
              = true)) :
    (Copy g0jfif g0jfxx exifdata (pre ++ c :: post) trailer).2.jfifChunk = none ∧
    (Copy g0jfif g0jfxx exifdata (pre ++ c :: post) trailer).2.jfxxChunk = none ∧
    (copyStep (chunkLoop ⟨g0jfif, g0jfxx, [], none, none, false, 0⟩ pre).1 c).chunks
      = (chunkLoop ⟨g0jfif, g0jfxx, [], none, none, false, 0⟩ pre).1.chunks ∧
    ((copyStep (chunkLoop ⟨g0jfif, g0jfxx, [], none, none, false, 0⟩ pre).1 c).jfifHeader
        = c ∨
      (copyStep (chunkLoop ⟨g0jfif, g0jfxx, [], none, none, false, 0⟩ pre).1 c).jfxxHeader
        = c) ∧
    chunkLoop ⟨g0jfif, g0jfxx, [], none, none, false, 0⟩ (pre ++ c :: post)
      = chunkLoop (copyStep (chunkLoop ⟨g0jfif, g0jfxx, [], none, none, false, 0⟩ pre).1 c)
          post ∧
    (∃ k, (chunkLoop ⟨g0jfif, g0jfxx, [], none, none, false, 0⟩ (pre ++ c :: post)).2
      = post.drop k) ∧
    (Copy g0jfif g0jfxx exifdata (pre ++ c :: post) trailer).1
      = match (chunkLoop ⟨g0jfif, g0jfxx, [], none, none, false, 0⟩
            (pre ++ c :: post)).1.chunks with
        | [] => none
        | c0 :: crest => some (c0 ++ optBytes exifdata ++ crest.flatten ++
            (chunkLoop ⟨g0jfif, g0jfxx, [], none, none, false, 0⟩
              (pre ++ c :: post)).2.flatten ++ trailer) := by
  obtain ⟨ho1, ho2, ho3⟩ := Copy_output g0jfif g0jfxx exifdata (pre ++ c :: post) trailer
  have hloc := chunkLoop_locals pre ⟨g0jfif, g0jfxx, [], none, none, false, 0⟩
  have hdec : chunkLoop ⟨g0jfif, g0jfxx, [], none, none, false, 0⟩ (pre ++ c :: post)
      = chunkLoop
          (copyStep (chunkLoop ⟨g0jfif, g0jfxx, [], none, none, false, 0⟩ pre).1 c) post := by
    rw [chunkLoop_append pre (c :: post) _ hpre]
    simp only [chunkLoop, if_pos hhas]
  have hstep : (copyStep (chunkLoop ⟨g0jfif, g0jfxx, [], none, none, false, 0⟩ pre).1 c).chunks
        = (chunkLoop ⟨g0jfif, g0jfxx, [], none, none, false, 0⟩ pre).1.chunks ∧
      ((copyStep (chunkLoop ⟨g0jfif, g0jfxx, [], none, none, false, 0⟩ pre).1 c).jfifHeader
          = c ∨
        (copyStep (chunkLoop ⟨g0jfif, g0jfxx, [], none, none, false, 0⟩ pre).1 c).jfxxHeader
          = c) := by
    rcases hmatch with hm | ⟨hm1, hm2⟩
    · rw [copyStep_jfif _ c (hloc.1.trans rfl) hm]
      exact ⟨rfl, Or.inl rfl⟩
    · rw [copyStep_jfxx _ c hm1 (hloc.2.trans rfl) hm2]
      exact ⟨rfl, Or.inr rfl⟩
  obtain ⟨k, hk⟩ := chunkLoop_unread post
    (copyStep (chunkLoop ⟨g0jfif, g0jfxx, [], none, none, false, 0⟩ pre).1 c)
  exact ⟨ho1, ho2, hstep.1, hstep.2, hdec, ⟨k, by rw [hdec]; exact hk⟩, ho3⟩

theorem C8_matched_chunk_not_written_witness :
    ((chunkLoop ⟨jfifChunkHeader0, jfxxChunkHeader0, [], none, none, false, 0⟩
        [[255, 216]]).2 = [] ∧
      (chunkLoop ⟨jfifChunkHeader0, jfxxChunkHeader0, [], none, none, false, 0⟩
        [[255, 216]]).1.has < 3 ∧
      cmpChunkHeader [255, 224, 0, 16, 74, 70, 73, 70, 0]
        (chunkLoop ⟨jfifChunkHeader0, jfxxChunkHeader0, [], none, none, false, 0⟩
          [[255, 216]]).1.jfifHeader = true) ∧
    ((Copy jfifChunkHeader0 jfxxChunkHeader0 none
        ([[255, 216]] ++ [255, 224, 0, 16, 74, 70, 73, 70, 0] :: [[200, 201]])
        [9, 9]).2.jfifChunk = none ∧
      (Copy jfifChunkHeader0 jfxxChunkHeader0 none
        ([[255, 216]] ++ [255, 224, 0, 16, 74, 70, 73, 70, 0] :: [[200, 201]])
        [9, 9]).2.jfxxChunk = none ∧
      (copyStep (chunkLoop ⟨jfifChunkHeader0, jfxxChunkHeader0, [], none, none, false, 0⟩
          [[255, 216]]).1 [255, 224, 0, 16, 74, 70, 73, 70, 0]).chunks
        = (chunkLoop ⟨jfifChunkHeader0, jfxxChunkHeader0, [], none, none, false, 0⟩
            [[255, 216]]).1.chunks ∧
      ((copyStep (chunkLoop ⟨jfifChunkHeader0, jfxxChunkHeader0, [], none, none, false, 0⟩
            [[255, 216]]).1 [255, 224, 0, 16, 74, 70, 73, 70, 0]).jfifHeader
          = [255, 224, 0, 16, 74, 70, 73, 70, 0] ∨
        (copyStep (chunkLoop ⟨jfifChunkHeader0, jfxxChunkHeader0, [], none, none, false, 0⟩
            [[255, 216]]).1 [255, 224, 0, 16, 74, 70, 73, 70, 0]).jfxxHeader
          = [255, 224, 0, 16, 74, 70, 73, 70, 0]) ∧
      chunkLoop ⟨jfifChunkHeader0, jfxxChunkHeader0, [], none, none, false, 0⟩
          ([[255, 216]] ++ [255, 224, 0, 16, 74, 70, 73, 70, 0] :: [[200, 201]])
        = chunkLoop
            (copyStep
              (chunkLoop ⟨jfifChunkHeader0, jfxxChunkHeader0, [], none, none, false, 0⟩
                [[255, 216]]).1 [255, 224, 0, 16, 74, 70, 73, 70, 0]) [[200, 201]] ∧
      (∃ k, (chunkLoop ⟨jfifChunkHeader0, jfxxChunkHeader0, [], none, none, false, 0⟩
          ([[255, 216]] ++ [255, 224, 0, 16, 74, 70, 73, 70, 0] :: [[200, 201]])).2
        = ([[200, 201]] : List (List Nat)).drop k) ∧
      (Copy jfifChunkHeader0 jfxxChunkHeader0 none
          ([[255, 216]] ++ [255, 224, 0, 16, 74, 70, 73, 70, 0] :: [[200, 201]]) [9, 9]).1
        = match (chunkLoop ⟨jfifChunkHeader0, jfxxChunkHeader0, [], none, none, false, 0⟩
              ([[255, 216]] ++ [255, 224, 0, 16, 74, 70, 73, 70, 0] :: [[200, 201]])).1.chunks
            with
          | [] => none
          | c0 :: crest => some (c0 ++ optBytes none ++ crest.flatten ++
              (chunkLoop ⟨jfifChunkHeader0, jfxxChunkHeader0, [], none, none, false, 0⟩
                ([[255, 216]] ++
                  [255, 224, 0, 16, 74, 70, 73, 70, 0] :: [[200, 201]])).2.flatten ++
              [9, 9])) :=
  ⟨⟨by decide, by decide, by decide⟩,
    C8_matched_chunk_not_written jfifChunkHeader0 jfxxChunkHeader0 none
      [[255, 216]] [[200, 201]] [255, 224, 0, 16, 74, 70, 73, 70, 0] [9, 9]
      (by decide) (by decide) (Or.inl (by decide))⟩

end Exif
